import Mathlib

/-!
# Verification of pip's configuration-resolution engine

This file gives a shallow embedding of `pip/baseparser.py`'s
`ConfigOptionParser` — the code that merges config-file sections and
`PIP_`-prefixed environment variables into the option defaults handed to
the command-line parser — together with the library behaviour it relies
on (`distutils.util.strtobool`, `optparse`'s `check_value`/`convert_value`
and default processing), and proves properties of the resolution pass.

Python dictionaries are modelled as insertion-ordered association lists
(`dictUpsert` keeps the position of an overwritten key, as CPython dicts
do); Python floats are modelled as rationals, since resolution only ever
parses decimal literals and never computes with them; Python `None` is
`Value.none`; a raised exception is an `Except.error` carrying which kind
of exception escaped to where.
-/

set_option autoImplicit false

namespace PipConfig

/-! ## Python dict model -/

/-- Insert or overwrite a binding, keeping the position of an existing key
(CPython dict assignment semantics). -/
def dictUpsert {α : Type} : List (String × α) → String → α → List (String × α)
  | [], k, v => [(k, v)]
  | (k', v') :: rest, k, v =>
    if k' = k then (k', v) :: rest else (k', v') :: dictUpsert rest k v

/-- `d.update(src)`: upsert every binding of `src`, in order. -/
def dictUpdate {α : Type} (d : List (String × α)) (src : List (String × α)) :
    List (String × α) :=
  src.foldl (fun acc kv => dictUpsert acc kv.1 kv.2) d

/-- Dictionary lookup (first binding of the key). -/
def dictGet {α : Type} : List (String × α) → String → Option α
  | [], _ => none
  | (k', v) :: rest, k => if k' = k then some v else dictGet rest k

/-- `Option.orElse` without the thunk, for readable precedence chains. -/
def oElse {α : Type} : Option α → Option α → Option α
  | some v, _ => some v
  | none, b => b

/-! ## Values and option descriptors -/

/-- A Python value as it occurs in pip's defaults dictionary. -/
inductive Value where
  | none
  | bool (b : Bool)
  | int (n : Int)
  | float (q : Rat)
  | str (s : String)
  | list (xs : List String)
  | tuple (xs : List Value)

/-- The `optparse` actions `update_defaults` dispatches on. -/
inductive OptAction where
  | store
  | storeTrue
  | storeFalse
  | count
  | append
  deriving DecidableEq

/-- The `optparse` option types appearing in pip's schema:
`None` (untyped flag/counter options), `str`, `float`, and `choice`. -/
inductive OptType where
  | tNone
  | tStr
  | tFloat
  | tChoice (choices : List String)
  deriving DecidableEq

/-- An `optparse.Option` as seen by the resolution engine: its long flag
spellings, destination, action, type, `nargs`, and hard-coded default
(`Value.none` models an absent default). -/
structure Opt where
  longOpts : List String
  dest : String
  action : OptAction
  type : OptType
  nargs : Option Nat
  default : Value

/-- `optparse.Option.get_opt_string`: the first long option string. -/
def getOptString (o : Opt) : String :=
  o.longOpts.headD ""

/-! ## Errors and exit statuses -/

/-- How a resolution pass dies.

* `configExit msg`: `update_defaults` caught an `OptionValueError`,
  printed `msg` and called `sys.exit(3)`.
* `uncaughtValueError msg`: `strtobool` raised a `ValueError`, which the
  `except optparse.OptionValueError` clause does not catch; CPython
  aborts with a traceback and exit status 1.
* `uncaughtTypeError msg`: a checker raised a `TypeError` (e.g.
  `float()` applied to a list); likewise uncaught, exit status 1.
* `uncaughtOptValueError msg`: `check_value` raised outside the guarded
  region (the string-default pass of `get_default_values`); under
  `optparse.parse_args` this is caught by the library and turned into a
  usage error, exit status 2. -/
inductive ResError where
  | configExit (msg : String)
  | uncaughtValueError (msg : String)
  | uncaughtTypeError (msg : String)
  | uncaughtOptValueError (msg : String)
  deriving DecidableEq

/-- The process exit status each failure produces. -/
def ResError.exitCode : ResError → Nat
  | .configExit _ => 3
  | .uncaughtValueError _ => 1
  | .uncaughtTypeError _ => 1
  | .uncaughtOptValueError _ => 2

/-- An exception inside `optparse`'s value checkers: either an
`OptionValueError` (caught by `update_defaults`) or a `TypeError`. -/
inductive CheckErr where
  | optValueError (msg : String)
  | typeError (msg : String)
  deriving DecidableEq

/-! ## String primitives

Lean's built-in `String.trim`, `String.split`, `String.replace`,
`String.toLower` and `String.startsWith` are defined by well-founded
recursion over byte positions and do not reduce inside the kernel, so the
same operations are given here structurally over the character list —
with the semantics of the Python string methods the source calls. -/

/-- Python's `str.lower()` (ASCII case, which is all pip's keys use). -/
def strLower (s : String) : String :=
  String.mk (s.toList.map Char.toLower)

/-- Python's `str.startswith(pat)`. -/
def strStarts (pat s : String) : Bool :=
  pat.toList.isPrefixOf s.toList

/-- One pass of `str.replace(pat, rep)`: scan left to right, replacing
non-overlapping occurrences.  `fuel` bounds the recursion and is always
called with the length of the scanned list. -/
def replaceFuel (pat rep : List Char) : Nat → List Char → List Char
  | 0, l => l
  | _ + 1, [] => []
  | fuel + 1, c :: rest =>
    if pat.isPrefixOf (c :: rest) then
      rep ++ replaceFuel pat rep fuel (rest.drop (pat.length - 1))
    else
      c :: replaceFuel pat rep fuel rest

/-- Python's `str.replace(pat, rep)` for a non-empty pattern (the engine
only ever replaces the non-empty environment prefix). -/
def strReplace (s pat rep : String) : String :=
  if pat = "" then s
  else String.mk (replaceFuel pat.toList rep.toList s.toList.length s.toList)

/-- Python's `str.strip()` with no arguments: drop leading and trailing
whitespace. -/
def strStrip (s : String) : String :=
  String.mk (((s.toList.dropWhile Char.isWhitespace).reverse.dropWhile
    Char.isWhitespace).reverse)

/-- Splitting pass of `str.split()`: cut at every whitespace character. -/
def splitWsAux : List Char → List Char → List String
  | [], acc => [String.mk acc.reverse]
  | c :: rest, acc =>
    if c.isWhitespace then String.mk acc.reverse :: splitWsAux rest []
    else splitWsAux rest (c :: acc)

/-- Python's `str.split()` with no arguments: split on whitespace runs,
dropping empty pieces. -/
def pySplit (s : String) : List String :=
  (splitWsAux s.toList []).filter (fun p => p ≠ "")

/-! ## Library coercion primitives -/

/-- `distutils.util.strtobool`: lower-case the string, return `1` on the
truthy vocabulary, `0` on the falsy one, raise `ValueError` otherwise
(the original message quotes the token with `%r`; the quoting is not
reproduced here). -/
def strtobool (s : String) : Except String Nat :=
  let v := strLower s
  if v = "y" ∨ v = "yes" ∨ v = "t" ∨ v = "true" ∨ v = "on" ∨ v = "1" then
    .ok 1
  else if v = "n" ∨ v = "no" ∨ v = "f" ∨ v = "false" ∨ v = "off" ∨ v = "0" then
    .ok 0
  else
    .error ("invalid truth value " ++ v)

/-- Value of a digit run, most significant first. -/
def digitsVal (cs : List Char) : Nat :=
  cs.foldl (fun a c => a * 10 + (c.toNat - 48)) 0

/-- Split a char list at the first `e`/`E`, if any. -/
def splitAtExpChar : List Char → List Char × Option (List Char)
  | [] => ([], Option.none)
  | c :: rest =>
    if c = 'e' ∨ c = 'E' then ([], some rest)
    else
      let (m, e) := splitAtExpChar rest
      (c :: m, e)

/-- Parse `digits`, `digits.digits`, `.digits` or `digits.` as a pair of
the combined digit value and the number of fraction digits. -/
def parseMantissa (cs : List Char) : Option (Nat × Nat) :=
  let ip := cs.takeWhile Char.isDigit
  let rest := cs.dropWhile Char.isDigit
  match rest with
  | [] => if ip.isEmpty then Option.none else some (digitsVal ip, 0)
  | '.' :: fp =>
    if fp.all Char.isDigit ∧ ¬(ip.isEmpty ∧ fp.isEmpty) then
      some (digitsVal (ip ++ fp), fp.length)
    else Option.none
  | _ => Option.none

/-- Parse an optionally signed digit run as an integer. -/
def parseSignedInt (cs : List Char) : Option Int :=
  match cs with
  | '+' :: r =>
    if ¬r.isEmpty ∧ r.all Char.isDigit then some (digitsVal r : Int) else Option.none
  | '-' :: r =>
    if ¬r.isEmpty ∧ r.all Char.isDigit then some (-(digitsVal r : Int)) else Option.none
  | r =>
    if ¬r.isEmpty ∧ r.all Char.isDigit then some (digitsVal r : Int) else Option.none

/-- Python's `float()` on a string: strip whitespace, optional sign,
decimal mantissa, optional decimal exponent; the denoted number is
`sign * mantissa * 10 ^ (exponent - fractionDigits)`, built as an exact
rational.  (`inf`/`nan` spellings play no role in configuration values
and are not modelled.) -/
def parseFloat (s : String) : Option Rat :=
  let cs := (strStrip s).toList
  let (sgn, cs2) : Int × List Char :=
    match cs with
    | '+' :: r => (1, r)
    | '-' :: r => (-1, r)
    | r => (1, r)
  let (mcs, ecs) := splitAtExpChar cs2
  match parseMantissa mcs with
  | Option.none => Option.none
  | some (m, fracLen) =>
    let expVal : Option Int :=
      match ecs with
      | Option.none => some 0
      | some el => parseSignedInt el
    match expVal with
    | Option.none => Option.none
    | some e =>
      match e - (fracLen : Int) with
      | .ofNat k => some (mkRat (sgn * (m : Int) * (10 : Int) ^ k) 1)
      | .negSucc k => some (mkRat (sgn * (m : Int)) ((10 : Nat) ^ (k + 1)))

/-- `optparse.Option.check_value` for the types in pip's schema: apply
the `TYPE_CHECKER` entry for the option's type (`str` and `None` have no
checker and pass the value through; `float` parses or raises
`OptionValueError`; `choice` tests membership or raises
`OptionValueError`).  `optName` is the name `check_value` reports in its
error messages. -/
def checkValue (t : OptType) (optName : String) (v : Value) : Except CheckErr Value :=
  match t with
  | .tNone => .ok v
  | .tStr => .ok v
  | .tFloat =>
    match v with
    | .str s =>
      match parseFloat s with
      | some q => .ok (.float q)
      | Option.none =>
        .error (.optValueError
          ("option " ++ optName ++ ": invalid floating-point value: " ++ s))
    | .int n => .ok (.float (mkRat n 1))
    | .bool b => .ok (.float (if b then 1 else 0))
    | .float q => .ok (.float q)
    | _ => .error (.typeError "float() argument must be a string or a number")
  | .tChoice choices =>
    match v with
    | .str s =>
      if s ∈ choices then .ok (.str s)
      else
        .error (.optValueError
          ("option " ++ optName ++ ": invalid choice: " ++ s))
    | _ =>
      .error (.optValueError ("option " ++ optName ++ ": invalid choice"))

/-- Check every element of a list (the `tuple([self.check_value(opt, v)
for v in value])` comprehension), stopping at the first exception. -/
def checkList (t : OptType) (optName : String) : List String → Except CheckErr (List Value)
  | [] => .ok []
  | x :: xs =>
    match checkValue t optName (.str x) with
    | .error e => .error e
    | .ok v =>
      match checkList t optName xs with
      | .error e => .error e
      | .ok vs => .ok (v :: vs)

/-- `optparse.Option.convert_value`: `None` passes through; with
`nargs == 1` the single value is checked; otherwise the value is iterated
and each element checked, building a tuple.  (Iterating a non-sequence
raises `TypeError`; iterating a string yields its characters.) -/
def convertValue (o : Opt) (optName : String) (v : Value) : Except CheckErr Value :=
  match v with
  | .none => .ok .none
  | v =>
    if o.nargs = some 1 then checkValue o.type optName v
    else
      match v with
      | .list xs =>
        match checkList o.type optName xs with
        | .ok vs => .ok (.tuple vs)
        | .error e => .error e
      | .str s =>
        match checkList o.type optName (s.toList.map (fun c => String.mk [c])) with
        | .ok vs => .ok (.tuple vs)
        | .error e => .error e
      | _ => .error (.typeError "argument is not iterable")

/-! ## Key normalization and source loading -/

/-- Replace every underscore by a hyphen
(`key.replace('_', '-')` for the single-character pattern). -/
def deUnderscore (s : String) : String :=
  String.mk (s.toList.map (fun c => if c = '_' then '-' else c))

/-- `key.startswith('--')`. -/
def startsTwoDashes (s : String) : Bool :=
  match s.toList with
  | '-' :: '-' :: _ => true
  | _ => false

/-- `ConfigOptionParser.normalize_keys`, per key: replace underscores by
hyphens and prepend `--` unless the key already starts with it. -/
def normalizeKey (k : String) : String :=
  let k2 := deUnderscore k
  if startsTwoDashes k2 then k2 else "--" ++ k2

/-- `ConfigOptionParser.normalize_keys`: build a dict whose keys are the
normalized source keys (a later duplicate overwrites an earlier one, as
in the Python dict the method fills). -/
def normalizeKeys (items : List (String × String)) : List (String × String) :=
  dictUpdate [] (items.map (fun kv => (normalizeKey kv.1, kv.2)))

/-- `ConfigOptionParser.get_environ_vars`: keep the variables whose name
starts with the prefix; the produced key is the name with every
occurrence of the prefix removed (`key.replace(prefix, '')`), lower-cased;
the value is unchanged. -/
def getEnvironVars (pfx : String) (environ : List (String × String)) :
    List (String × String) :=
  match environ with
  | [] => []
  | (k, v) :: rest =>
    if strStarts pfx k then
      (strLower (strReplace k pfx ""), v) :: getEnvironVars pfx rest
    else getEnvironVars pfx rest

/-- `ConfigOptionParser.get_config_section`: a missing section is an
empty item list. -/
def getConfigSection (cfg : List (String × List (String × String))) (name : String) :
    List (String × String) :=
  match dictGet cfg name with
  | some items => items
  | Option.none => []

/-- The merged raw mapping `update_defaults` builds: an empty dict
updated with the normalized global section, then the normalized
command-named section, then the normalized environment pairs. -/
def mergeSources (g c e : List (String × String)) : List (String × String) :=
  dictUpdate (dictUpdate (dictUpdate [] (normalizeKeys g)) (normalizeKeys c))
    (normalizeKeys e)

/-! ## The resolution loop -/

/-- `OptionParser.get_option` restricted to the long-option table (every
normalized key starts with `--`, so the short-option table never
matches): the first option one of whose long spellings is the key. -/
def getOption : List Opt → String → Option Opt
  | [], _ => Option.none
  | o :: rest, k => if k ∈ o.longOpts then some o else getOption rest k

/-- The `option.nargs = 1` assignment: mutate the looked-up option
(the first one matching the key) in the parser's option table. -/
def setNargsOne : List Opt → String → List Opt
  | [], _ => []
  | o :: rest, k =>
    if k ∈ o.longOpts then { o with nargs := some 1 } :: rest
    else o :: setNargsOne rest k

/-- Lines 127–139 of `update_defaults` for a matched option and a
non-empty raw value: split on whitespace for `append` options, otherwise
force `nargs` to 1; run `strtobool` for flag and counter actions (its
`ValueError` escapes the `try` that only catches `OptionValueError`);
then `convert_value`, whose `OptionValueError` is caught, printed and
turned into `sys.exit(3)`. -/
def coerceStep (o : Opt) (k : String) (v : String) : Except ResError Value :=
  let oEff := if o.action = .append then o else { o with nargs := some 1 }
  let val0 : Value := if o.action = .append then .list (pySplit v) else .str v
  let boolStep : Except ResError Value :=
    if o.action = .storeTrue ∨ o.action = .storeFalse ∨ o.action = .count then
      match strtobool v with
      | .ok n => .ok (.int (n : Int))
      | .error m => .error (.uncaughtValueError m)
    else .ok val0
  match boolStep with
  | .error e => .error e
  | .ok val1 =>
    match convertValue oEff k val1 with
    | .ok val2 => .ok val2
    | .error (.optValueError m) =>
      .error (.configExit ("An error occured during configuration: " ++ m))
    | .error (.typeError m) => .error (.uncaughtTypeError m)

/-- The `for key, val in config.items()` loop of `update_defaults`:
unknown keys are skipped, empty values are skipped, otherwise the value
is coerced (mutating the matched option's `nargs` for non-`append`
actions) and stored under the option's `dest`. -/
def updLoop (opts : List Opt) (defaults : List (String × Value)) :
    List (String × String) → Except ResError (List (String × Value) × List Opt)
  | [] => .ok (defaults, opts)
  | (k, v) :: rest =>
    match getOption opts k with
    | Option.none => updLoop opts defaults rest
    | some o =>
      if v = "" then updLoop opts defaults rest
      else
        let opts2 := if o.action = .append then opts else setNargsOne opts k
        match coerceStep o k v with
        | .ok val => updLoop opts2 (dictUpsert defaults o.dest val) rest
        | .error e => .error e

/-- `ConfigOptionParser.update_defaults`: merge the three sources and run
the loop over the merged dict, returning the updated defaults and the
(possibly `nargs`-mutated) option table. -/
def updateDefaults (opts : List Opt) (g c e : List (String × String))
    (defaults : List (String × Value)) :
    Except ResError (List (String × Value) × List Opt) :=
  updLoop opts defaults (mergeSources g c e)

/-- The loop at the end of `get_default_values`: every option whose
stored default is a string is re-checked through `check_value` (an
exception here escapes `get_default_values` itself). -/
def checkDefaultsLoop : List Opt → List (String × Value) →
    Except ResError (List (String × Value))
  | [], d => .ok d
  | o :: rest, d =>
    match dictGet d o.dest with
    | some (.str s) =>
      match checkValue o.type (getOptString o) (.str s) with
      | .ok v => checkDefaultsLoop rest (dictUpsert d o.dest v)
      | .error (.optValueError m) => .error (.uncaughtOptValueError m)
      | .error (.typeError m) => .error (.uncaughtTypeError m)
    | _ => checkDefaultsLoop rest d

/-- The parser state the resolution engine reads and writes: the command
name, the option table, and the stored defaults dict. -/
structure Parser where
  name : String
  options : List Opt
  defaults : List (String × Value)

/-- `ConfigOptionParser.get_default_values` (with
`process_default_values` set, as in every supported `optparse`):
run `update_defaults` on a copy of `self.defaults` — the parser's own
`defaults` dict is not rebound, while the option table keeps any `nargs`
mutation — then re-check string defaults and return the produced values
with the resulting parser state. -/
def getDefaultValues (p : Parser) (cfg : List (String × List (String × String)))
    (environ : List (String × String)) :
    Except ResError (List (String × Value) × Parser) :=
  let g := getConfigSection cfg "global"
  let c := getConfigSection cfg p.name
  let e := getEnvironVars "PIP_" environ
  match updateDefaults p.options g c e p.defaults with
  | .error err => .error err
  | .ok (d1, opts1) =>
    match checkDefaultsLoop opts1 d1 with
    | .error err => .error err
    | .ok d2 => .ok (d2, { p with options := opts1 })

/-- `optparse`'s defaults table as filled by `add_option`: each option
contributes its default under its `dest`; an absent default (`Value.none`,
modelling `NO_DEFAULT`) does not overwrite an earlier binding. -/
def schemaDefaults (opts : List Opt) : List (String × Value) :=
  opts.foldl
    (fun d o =>
      match o.default, dictGet d o.dest with
      | .none, some _ => d
      | _, _ => dictUpsert d o.dest o.default)
    []

/-! ## Dictionary lemmas -/

/-- The keys of an association list, in order. -/
def keysOf {α : Type} (d : List (String × α)) : List String :=
  d.map Prod.fst

theorem dictGet_dictUpsert {α : Type} (d : List (String × α)) (k : String) (v : α)
    (k2 : String) :
    dictGet (dictUpsert d k v) k2 = if k = k2 then some v else dictGet d k2 := by
  induction d with
  | nil => simp [dictUpsert, dictGet]
  | cons hd tl ih =>
    obtain ⟨k3, v3⟩ := hd
    by_cases h3 : k3 = k
    · subst h3
      by_cases h2 : k3 = k2
      · subst h2; simp [dictUpsert, dictGet]
      · simp [dictUpsert, dictGet, h2, Ne.symm h2]
    · by_cases h2 : k3 = k2
      · subst h2
        have : ¬ k = k3 := fun h => h3 h.symm
        simp [dictUpsert, dictGet, h3, this]
      · simp [dictUpsert, dictGet, h3, h2, ih]

theorem oElse_none_right {α : Type} (a : Option α) : oElse a Option.none = a := by
  cases a <;> rfl

theorem oElse_assoc {α : Type} (a b c : Option α) :
    oElse (oElse a b) c = oElse a (oElse b c) := by
  cases a <;> rfl

theorem dictGet_dictUpdate {α : Type} (src d : List (String × α)) (k : String) :
    dictGet (dictUpdate d src) k =
      oElse (dictGet (dictUpdate [] src) k) (dictGet d k) := by
  induction src generalizing d with
  | nil => simp [dictUpdate, oElse, dictGet]
  | cons hd tl ih =>
    obtain ⟨k1, v1⟩ := hd
    have step : ∀ d2 : List (String × α),
        dictUpdate d2 ((k1, v1) :: tl) = dictUpdate (dictUpsert d2 k1 v1) tl := by
      intro d2; rfl
    rw [step d, step [], ih (dictUpsert d k1 v1), ih (dictUpsert [] k1 v1)]
    cases h : dictGet (dictUpdate [] tl) k with
    | some w => simp [oElse]
    | none =>
      simp only [oElse]
      rw [dictGet_dictUpsert, dictGet_dictUpsert]
      by_cases h1 : k1 = k <;> simp [h1, dictUpsert, dictGet, oElse]

theorem dictGet_eq_none_of_not_mem_keys {α : Type} {d : List (String × α)} {k : String}
    (h : k ∉ keysOf d) : dictGet d k = Option.none := by
  induction d with
  | nil => rfl
  | cons hd tl ih =>
    obtain ⟨k1, v1⟩ := hd
    simp only [keysOf, List.map_cons, List.mem_cons] at h
    push_neg at h
    simp [dictGet, Ne.symm h.1, ih (by simpa [keysOf] using h.2)]

theorem mem_keys_of_dictGet {α : Type} {d : List (String × α)} {k : String} {v : α}
    (h : dictGet d k = some v) : k ∈ keysOf d := by
  by_contra hk
  rw [dictGet_eq_none_of_not_mem_keys hk] at h
  cases h

theorem mem_keys_dictUpsert {α : Type} {d : List (String × α)} {k : String} {v : α}
    {a : String} (h : a ∈ keysOf (dictUpsert d k v)) : a = k ∨ a ∈ keysOf d := by
  induction d with
  | nil => simpa [dictUpsert, keysOf] using h
  | cons hd tl ih =>
    obtain ⟨k1, v1⟩ := hd
    by_cases h1 : k1 = k
    · subst h1
      have e : dictUpsert ((k1, v1) :: tl) k1 v = (k1, v) :: tl := by simp [dictUpsert]
      rw [e] at h
      simp only [keysOf, List.map_cons, List.mem_cons] at h ⊢
      exact h.imp id Or.inr
    · simp only [dictUpsert, h1, if_false, keysOf, List.map_cons, List.mem_cons] at h
      rcases h with h | h
      · exact Or.inr (by simp [keysOf, h])
      · rcases ih (by simpa [keysOf] using h) with h2 | h2
        · exact Or.inl h2
        · exact Or.inr (by simp [keysOf] at h2 ⊢; exact Or.inr h2)

theorem mem_keys_dictUpdate {α : Type} {src d : List (String × α)} {a : String}
    (h : a ∈ keysOf (dictUpdate d src)) : a ∈ keysOf d ∨ a ∈ keysOf src := by
  induction src generalizing d with
  | nil => exact Or.inl h
  | cons hd tl ih =>
    obtain ⟨k1, v1⟩ := hd
    have : a ∈ keysOf (dictUpdate (dictUpsert d k1 v1) tl) := h
    rcases ih this with h2 | h2
    · rcases mem_keys_dictUpsert h2 with h3 | h3
      · exact Or.inr (by simp [keysOf, h3])
      · exact Or.inl h3
    · exact Or.inr (by simp [keysOf] at h2 ⊢; exact Or.inr h2)

theorem nodup_keys_dictUpsert {α : Type} {d : List (String × α)} (k : String) (v : α)
    (h : (keysOf d).Nodup) : (keysOf (dictUpsert d k v)).Nodup := by
  induction d with
  | nil => simp [dictUpsert, keysOf]
  | cons hd tl ih =>
    obtain ⟨k1, v1⟩ := hd
    simp only [keysOf, List.map_cons, List.nodup_cons] at h
    by_cases h1 : k1 = k
    · subst h1; simpa [dictUpsert, keysOf] using h
    · simp only [dictUpsert, h1, if_false, keysOf, List.map_cons, List.nodup_cons]
      refine ⟨fun hmem => ?_, ih h.2⟩
      rcases mem_keys_dictUpsert (by simpa [keysOf] using hmem) with h2 | h2
      · exact h1 h2
      · exact h.1 (by simpa [keysOf] using h2)

theorem nodup_keys_dictUpdate {α : Type} {src d : List (String × α)}
    (h : (keysOf d).Nodup) : (keysOf (dictUpdate d src)).Nodup := by
  induction src generalizing d with
  | nil => exact h
  | cons hd tl ih => exact ih (nodup_keys_dictUpsert hd.1 hd.2 h)

theorem dictUpsert_fresh {α : Type} {d : List (String × α)} {k : String} (v : α)
    (h : k ∉ keysOf d) : dictUpsert d k v = d ++ [(k, v)] := by
  induction d with
  | nil => rfl
  | cons hd tl ih =>
    obtain ⟨k1, v1⟩ := hd
    simp only [keysOf, List.map_cons, List.mem_cons] at h
    push_neg at h
    simp [dictUpsert, Ne.symm h.1, ih (by simpa [keysOf] using h.2)]

theorem dictUpdate_fresh {α : Type} {src : List (String × α)} :
    ∀ {acc : List (String × α)}, (keysOf src).Nodup →
    (∀ k ∈ keysOf src, k ∉ keysOf acc) → dictUpdate acc src = acc ++ src := by
  induction src with
  | nil => intro acc _ _; simp [dictUpdate]
  | cons hd tl ih =>
    intro acc hnd hfresh
    obtain ⟨k1, v1⟩ := hd
    simp only [keysOf, List.map_cons, List.nodup_cons] at hnd
    have hk1 : k1 ∉ keysOf acc := hfresh k1 (by simp [keysOf])
    have step : dictUpdate acc ((k1, v1) :: tl) = dictUpdate (dictUpsert acc k1 v1) tl := rfl
    have hfresh2 : ∀ k ∈ keysOf tl, k ∉ keysOf (acc ++ [(k1, v1)]) := by
      intro k hk hmem
      have hsplit : keysOf (acc ++ [(k1, v1)]) = keysOf acc ++ [k1] := by simp [keysOf]
      rw [hsplit] at hmem
      rcases List.mem_append.mp hmem with h2 | h2
      · exact hfresh k (by simp [keysOf] at hk ⊢; exact Or.inr hk) h2
      · have hkk : k = k1 := by simpa using h2
        simp only [keysOf] at hk
        exact hnd.1 (hkk ▸ hk)
    rw [step, dictUpsert_fresh v1 hk1, ih hnd.2 hfresh2]
    simp

theorem dictUpdate_self {α : Type} {d : List (String × α)}
    (h : (keysOf d).Nodup) : dictUpdate [] d = d := by
  simpa using dictUpdate_fresh h (by simp [keysOf])

/-! ## The merged mapping as a precedence chain -/

/-- What a raw source supplies at a canonical key, after normalization
(the last raw binding normalizing to that key wins, as in the dict
`normalize_keys` fills). -/
def supplies (src : List (String × String)) (K : String) : Option String :=
  dictGet (normalizeKeys src) K

theorem nodup_keys_normalizeKeys (items : List (String × String)) :
    (keysOf (normalizeKeys items)).Nodup :=
  nodup_keys_dictUpdate (by simp [keysOf])

theorem nodup_keys_mergeSources (g c e : List (String × String)) :
    (keysOf (mergeSources g c e)).Nodup :=
  nodup_keys_dictUpdate (nodup_keys_dictUpdate (nodup_keys_dictUpdate (by simp [keysOf])))

/-- The value the merged dict holds at a canonical key is the
highest-precedence supplied value: environment, then the command-named
section, then the global section. -/
theorem mergeSources_get (g c e : List (String × String)) (K : String) :
    dictGet (mergeSources g c e) K =
      oElse (supplies e K) (oElse (supplies c K) (supplies g K)) := by
  have hself : ∀ items : List (String × String),
      dictGet (dictUpdate [] (normalizeKeys items)) K = supplies items K := by
    intro items
    rw [dictUpdate_self (nodup_keys_normalizeKeys items)]
    rfl
  unfold mergeSources
  rw [dictGet_dictUpdate (normalizeKeys e), hself e,
    dictGet_dictUpdate (normalizeKeys c), hself c]
  congr 1
  have hg : dictUpdate ([] : List (String × String)) (normalizeKeys g) =
      normalizeKeys g := dictUpdate_self (nodup_keys_normalizeKeys g)
  rw [hg]
  rfl

/-! ## The nargs mutation, as a relation on option tables -/

/-- How `update_defaults` may change one option object: either untouched,
or — for a non-`append` option — its `nargs` forced to 1 with every other
field intact. -/
def optR (o0 o : Opt) : Prop :=
  o = o0 ∨ (o0.action ≠ .append ∧ o = { o0 with nargs := some 1 })

/-- Pointwise `optR` over the parser's option table. -/
inductive optsR : List Opt → List Opt → Prop where
  | nil : optsR [] []
  | cons {o0 o : Opt} {r0 r : List Opt} :
      optR o0 o → optsR r0 r → optsR (o0 :: r0) (o :: r)

theorem optR_refl (o : Opt) : optR o o := Or.inl rfl

theorem optsR_refl (opts : List Opt) : optsR opts opts := by
  induction opts with
  | nil => exact .nil
  | cons hd tl ih => exact .cons (optR_refl hd) ih

theorem optR_longOpts {o0 o : Opt} (h : optR o0 o) : o.longOpts = o0.longOpts := by
  rcases h with h | ⟨_, h⟩ <;> subst h <;> rfl

theorem optR_dest {o0 o : Opt} (h : optR o0 o) : o.dest = o0.dest := by
  rcases h with h | ⟨_, h⟩ <;> subst h <;> rfl

theorem optR_action {o0 o : Opt} (h : optR o0 o) : o.action = o0.action := by
  rcases h with h | ⟨_, h⟩ <;> subst h <;> rfl

theorem optR_type {o0 o : Opt} (h : optR o0 o) : o.type = o0.type := by
  rcases h with h | ⟨_, h⟩ <;> subst h <;> rfl

theorem optR_default {o0 o : Opt} (h : optR o0 o) : o.default = o0.default := by
  rcases h with h | ⟨_, h⟩ <;> subst h <;> rfl

theorem optR_of_append {o0 o : Opt} (h : optR o0 o) (ha : o.action = .append) :
    o = o0 := by
  rcases h with h | ⟨hna, h⟩
  · exact h
  · exact absurd (by rw [← optR_action (Or.inr ⟨hna, h⟩), ha]) hna

/-- `coerceStep` only reads the fields `optR` preserves (for `append`
options the two related descriptors coincide outright). -/
theorem coerceStep_optR {o0 o : Opt} (h : optR o0 o) (k v : String) :
    coerceStep o k v = coerceStep o0 k v := by
  rcases h with h | ⟨hna, h⟩
  · subst h; rfl
  · subst h
    show coerceStep { o0 with nargs := some 1 } k v = coerceStep o0 k v
    unfold coerceStep
    simp only [hna, if_false]

/-- Looking an option up through a related table finds related options
(in particular, found-ness is preserved). -/
theorem getOption_optsR {opts0 opts : List Opt} (h : optsR opts0 opts) (k : String) :
    (getOption opts0 k = Option.none ∧ getOption opts k = Option.none) ∨
    (∃ o0 o, getOption opts0 k = some o0 ∧ getOption opts k = some o ∧ optR o0 o) := by
  induction h with
  | nil => exact Or.inl ⟨rfl, rfl⟩
  | @cons o0 o r0 r hR htl ih =>
    by_cases hk : k ∈ o0.longOpts
    · refine Or.inr ⟨o0, o, ?_, ?_, hR⟩
      · simp [getOption, hk]
      · have hk2 : k ∈ o.longOpts := by rw [optR_longOpts hR]; exact hk
        simp [getOption, hk2]
    · have hk2 : k ∉ o.longOpts := by rw [optR_longOpts hR]; exact hk
      rcases ih with ⟨h1, h2⟩ | ⟨a, b, h1, h2, h3⟩
      · exact Or.inl ⟨by simp [getOption, hk, h1], by simp [getOption, hk2, h2]⟩
      · exact Or.inr ⟨a, b, by simp [getOption, hk, h1], by simp [getOption, hk2, h2], h3⟩

theorem getOption_none_optsR {opts0 opts : List Opt} (h : optsR opts0 opts) {k : String}
    (h0 : getOption opts0 k = Option.none) : getOption opts k = Option.none := by
  rcases getOption_optsR h k with ⟨_, h2⟩ | ⟨a, b, h1, _, _⟩
  · exact h2
  · rw [h0] at h1; cases h1

theorem getOption_some_optsR {opts0 opts : List Opt} (h : optsR opts0 opts) {k : String}
    {o : Opt} (hfind : getOption opts k = some o) :
    ∃ o0, getOption opts0 k = some o0 ∧ optR o0 o := by
  rcases getOption_optsR h k with ⟨_, h2⟩ | ⟨a, b, h1, h2, h3⟩
  · rw [hfind] at h2; cases h2
  · rw [hfind] at h2
    cases h2
    exact ⟨a, h1, h3⟩

/-- Forcing `nargs := 1` on the first match of a key keeps the table
related, provided the matched option is not an `append` option. -/
theorem optsR_setNargsOne {opts0 opts : List Opt} (h : optsR opts0 opts) {k : String}
    {o : Opt} (hfind : getOption opts k = some o) (hact : o.action ≠ .append) :
    optsR opts0 (setNargsOne opts k) := by
  induction h with
  | nil => exact .nil
  | @cons o0 o1 r0 r hR htl ih =>
    by_cases hk : k ∈ o1.longOpts
    · have ho1 : o1 = o := by
        have h2 : getOption (o1 :: r) k = some o1 := by simp [getOption, hk]
        rw [hfind] at h2; cases h2; rfl
      subst ho1
      have hact0 : o0.action ≠ .append := by
        rw [← optR_action hR]; exact hact
      have step : setNargsOne (o1 :: r) k = { o1 with nargs := some 1 } :: r := by
        simp [setNargsOne, hk]
      rw [step]
      refine .cons ?_ htl
      rcases hR with hR | ⟨_, hR⟩
      · subst hR
        exact Or.inr ⟨hact0, rfl⟩
      · subst hR
        exact Or.inr ⟨hact0, rfl⟩
    · have step : setNargsOne (o1 :: r) k = o1 :: setNargsOne r k := by
        simp [setNargsOne, hk]
      rw [step]
      have hfind2 : getOption r k = some o := by
        simpa [getOption, hk] using hfind
      exact .cons hR (ih hfind2)

theorem optsR_mem {a b : List Opt} (h : optsR a b) {o : Opt} (ho : o ∈ b) :
    ∃ o0 ∈ a, optR o0 o := by
  induction h with
  | nil => cases ho
  | @cons o0 o1 r0 r hR htl ih =>
    rcases List.mem_cons.mp ho with h1 | h1
    · exact ⟨o0, by simp, h1 ▸ hR⟩
    · obtain ⟨o2, h2, h3⟩ := ih h1
      exact ⟨o2, by simp [h2], h3⟩

theorem getOption_mem {opts : List Opt} {k : String} {o : Opt}
    (h : getOption opts k = some o) : o ∈ opts := by
  induction opts with
  | nil => cases h
  | cons hd tl ih =>
    by_cases hk : k ∈ hd.longOpts
    · simp [getOption, hk] at h
      simp [← h]
    · simp only [getOption, hk, if_false] at h
      exact List.mem_cons_of_mem _ (ih h)

/-! ## Behaviour of the resolution loop -/

/-- The last entry of the merged mapping that the loop will store under
destination `D`: its key must match an option with that destination and
its value must be non-empty. -/
def lastRelevant (opts : List Opt) (D : String) :
    List (String × String) → Option (String × Opt × String)
  | [] => Option.none
  | (k, v) :: rest =>
    match lastRelevant opts D rest with
    | some r => some r
    | Option.none =>
      match getOption opts k with
      | some o => if o.dest = D ∧ v ≠ "" then some (k, o, v) else Option.none
      | Option.none => Option.none

/-- A successful pass of the loop only rewrites option tables along
`optR`: no field other than `nargs` ever changes, and `nargs` is only
ever set to 1 on non-`append` options. -/
theorem updLoop_optsR {opts0 : List Opt} {merged : List (String × String)} :
    ∀ {opts : List Opt} {defaults d2 : List (String × Value)} {opts2 : List Opt},
    optsR opts0 opts → updLoop opts defaults merged = .ok (d2, opts2) →
    optsR opts0 opts2 := by
  induction merged with
  | nil =>
    intro opts defaults d2 opts2 hR hok
    simp only [updLoop, Except.ok.injEq, Prod.mk.injEq] at hok
    rw [← hok.2]
    exact hR
  | cons hd rest ih =>
    intro opts defaults d2 opts2 hR hok
    obtain ⟨k, v⟩ := hd
    rw [updLoop] at hok
    cases hopt : getOption opts k with
    | none =>
      rw [hopt] at hok
      exact ih hR hok
    | some o =>
      rw [hopt] at hok
      dsimp only at hok
      by_cases hv : v = ""
      · rw [if_pos hv] at hok
        exact ih hR hok
      · rw [if_neg hv] at hok
        cases hcs : coerceStep o k v with
        | error e => rw [hcs] at hok; cases hok
        | ok val =>
          rw [hcs] at hok
          dsimp only at hok
          by_cases hact : o.action = .append
          · rw [if_pos hact] at hok
            exact ih hR hok
          · rw [if_neg hact] at hok
            exact ih (optsR_setNargsOne hR hopt hact) hok

/-- If no entry of the merged mapping is stored under destination `D`,
the loop leaves `D`'s binding untouched. -/
theorem updLoop_unchanged {opts0 : List Opt} {D : String}
    {merged : List (String × String)} :
    ∀ {opts : List Opt} {defaults d2 : List (String × Value)} {opts2 : List Opt},
    optsR opts0 opts → updLoop opts defaults merged = .ok (d2, opts2) →
    lastRelevant opts0 D merged = Option.none →
    dictGet d2 D = dictGet defaults D := by
  induction merged with
  | nil =>
    intro opts defaults d2 opts2 _ hok _
    simp only [updLoop, Except.ok.injEq, Prod.mk.injEq] at hok
    rw [← hok.1]
  | cons hd rest ih =>
    intro opts defaults d2 opts2 hR hok hrel
    obtain ⟨k, v⟩ := hd
    rw [lastRelevant] at hrel
    cases hrest : lastRelevant opts0 D rest with
    | some r => rw [hrest] at hrel; cases hrel
    | none =>
      rw [hrest] at hrel
      dsimp only at hrel
      rw [updLoop] at hok
      cases hopt : getOption opts k with
      | none =>
        rw [hopt] at hok
        exact ih hR hok hrest
      | some o =>
        obtain ⟨o0, hopt0, hRo⟩ := getOption_some_optsR hR hopt
        rw [hopt0] at hrel
        dsimp only at hrel
        rw [hopt] at hok
        dsimp only at hok
        by_cases hv : v = ""
        · rw [if_pos hv] at hok
          exact ih hR hok hrest
        · rw [if_neg hv] at hok
          have hcond : ¬(o0.dest = D ∧ v ≠ "") := by
            intro hc
            rw [if_pos hc] at hrel
            cases hrel
          have hdest : o0.dest ≠ D := fun hD => hcond ⟨hD, hv⟩
          cases hcs : coerceStep o k v with
          | error e => rw [hcs] at hok; cases hok
          | ok val =>
            rw [hcs] at hok
            dsimp only at hok
            have hdest2 : o.dest ≠ D := by rw [optR_dest hRo]; exact hdest
            have hget : dictGet (dictUpsert defaults o.dest val) D = dictGet defaults D := by
              rw [dictGet_dictUpsert, if_neg hdest2]
            by_cases hact : o.action = .append
            · rw [if_pos hact] at hok
              rw [ih hR hok hrest, hget]
            · rw [if_neg hact] at hok
              rw [ih (optsR_setNargsOne hR hopt hact) hok hrest, hget]

/-- If the last relevant entry for destination `D` is `(k, o0, v)`, a
successful loop leaves `D` bound to the coercion of `v`. -/
theorem updLoop_resolves {opts0 : List Opt} {D : String}
    {merged : List (String × String)} :
    ∀ {opts : List Opt} {defaults d2 : List (String × Value)} {opts2 : List Opt}
      {k : String} {o0 : Opt} {v : String},
    optsR opts0 opts → updLoop opts defaults merged = .ok (d2, opts2) →
    lastRelevant opts0 D merged = some (k, o0, v) →
    ∃ val, coerceStep o0 k v = .ok val ∧ dictGet d2 D = some val := by
  induction merged with
  | nil =>
    intro opts defaults d2 opts2 k o0 v _ _ hrel
    cases hrel
  | cons hd rest ih =>
    intro opts defaults d2 opts2 k o0 v hR hok hrel
    obtain ⟨k1, v1⟩ := hd
    rw [lastRelevant] at hrel
    cases hrest : lastRelevant opts0 D rest with
    | some r =>
      rw [hrest] at hrel
      dsimp only at hrel
      cases hrel
      rw [updLoop] at hok
      cases hopt : getOption opts k1 with
      | none =>
        rw [hopt] at hok
        exact ih hR hok hrest
      | some o =>
        rw [hopt] at hok
        dsimp only at hok
        by_cases hv1 : v1 = ""
        · rw [if_pos hv1] at hok
          exact ih hR hok hrest
        · rw [if_neg hv1] at hok
          cases hcs : coerceStep o k1 v1 with
          | error e => rw [hcs] at hok; cases hok
          | ok val =>
            rw [hcs] at hok
            dsimp only at hok
            by_cases hact : o.action = .append
            · rw [if_pos hact] at hok
              exact ih hR hok hrest
            · rw [if_neg hact] at hok
              exact ih (optsR_setNargsOne hR hopt hact) hok hrest
    | none =>
      rw [hrest] at hrel
      dsimp only at hrel
      rw [updLoop] at hok
      cases hopt : getOption opts k1 with
      | none =>
        have hopt0 : getOption opts0 k1 = Option.none := by
          rcases getOption_optsR hR k1 with ⟨h1, _⟩ | ⟨a, b, _, h2, _⟩
          · exact h1
          · rw [hopt] at h2; cases h2
        rw [hopt0] at hrel
        cases hrel
      | some o =>
        obtain ⟨o1, hopt0, hRo⟩ := getOption_some_optsR hR hopt
        rw [hopt0] at hrel
        dsimp only at hrel
        rw [hopt] at hok
        dsimp only at hok
        by_cases hcond : o1.dest = D ∧ v1 ≠ ""
        · rw [if_pos hcond] at hrel
          cases hrel
          rw [if_neg hcond.2] at hok
          cases hcs : coerceStep o k v with
          | error e => rw [hcs] at hok; cases hok
          | ok val =>
            rw [hcs] at hok
            dsimp only at hok
            refine ⟨val, by rw [← coerceStep_optR hRo]; exact hcs, ?_⟩
            have hdest : o.dest = D := by rw [optR_dest hRo]; exact hcond.1
            have hget : dictGet (dictUpsert defaults o.dest val) D = some val := by
              rw [dictGet_dictUpsert, hdest, if_pos rfl]
            by_cases hact : o.action = .append
            · rw [if_pos hact] at hok
              rw [updLoop_unchanged hR hok hrest, hget]
            · rw [if_neg hact] at hok
              rw [updLoop_unchanged (optsR_setNargsOne hR hopt hact) hok hrest, hget]
        · rw [if_neg hcond] at hrel
          cases hrel
/-- Entries whose key matches no option are invisible to the loop:
filtering them out of the merged mapping changes nothing — neither the
result nor whether an error occurs. -/
theorem updLoop_ignores_unknown {opts0 : List Opt} {K : String}
    (hK : getOption opts0 K = Option.none) {merged : List (String × String)} :
    ∀ {opts : List Opt} {defaults : List (String × Value)},
    optsR opts0 opts →
    updLoop opts defaults merged =
      updLoop opts defaults (merged.filter fun kv => kv.1 ≠ K) := by
  induction merged with
  | nil => intro opts defaults _; rfl
  | cons hd rest ih =>
    intro opts defaults hR
    obtain ⟨k, v⟩ := hd
    by_cases hk : k = K
    · have hfil : ((k, v) :: rest).filter (fun kv => kv.1 ≠ K) =
          rest.filter (fun kv => kv.1 ≠ K) := by
        simp [List.filter_cons, hk]
      have hknone : getOption opts k = Option.none := by
        rw [hk]; exact getOption_none_optsR hR hK
      rw [hfil, updLoop, hknone]
      exact ih hR
    · have hfil : ((k, v) :: rest).filter (fun kv => kv.1 ≠ K) =
          (k, v) :: rest.filter (fun kv => kv.1 ≠ K) := by
        simp [List.filter_cons, hk]
      rw [hfil, updLoop, updLoop]
      cases hopt : getOption opts k with
      | none => exact ih hR
      | some o =>
        dsimp only
        by_cases hv : v = ""
        · rw [if_pos hv]
          try rw [if_pos hv]
          exact ih hR
        · rw [if_neg hv]
          try rw [if_neg hv]
          cases hcs : coerceStep o k v with
          | error e => rfl
          | ok val =>
            dsimp only
            by_cases hact : o.action = .append
            · rw [if_pos hact]
              try rw [if_pos hact]
              exact ih hR
            · rw [if_neg hact]
              try rw [if_neg hact]
              exact ih (optsR_setNargsOne hR hopt hact)

/-! ## Which sources mention an option -/

/-- A raw source mentions destination `D` when one of its keys
normalizes to a spelling of an option with that destination. -/
def mentionsDest (opts : List Opt) (src : List (String × String)) (D : String) : Prop :=
  ∃ kv ∈ src, ∃ o, getOption opts (normalizeKey kv.1) = some o ∧ o.dest = D

theorem lastRelevant_sound {opts : List Opt} {D : String} :
    ∀ {m : List (String × String)} {k : String} {o : Opt} {v : String},
    lastRelevant opts D m = some (k, o, v) →
    k ∈ keysOf m ∧ getOption opts k = some o ∧ o.dest = D ∧ v ≠ "" := by
  intro m
  induction m with
  | nil => intro k o v h; cases h
  | cons hd rest ih =>
    intro k o v h
    obtain ⟨k1, v1⟩ := hd
    rw [lastRelevant] at h
    cases hrest : lastRelevant opts D rest with
    | some r =>
      rw [hrest] at h
      dsimp only at h
      cases h
      obtain ⟨h1, h2, h3, h4⟩ := ih hrest
      exact ⟨by simp [keysOf] at h1 ⊢; exact Or.inr h1, h2, h3, h4⟩
    | none =>
      rw [hrest] at h
      dsimp only at h
      cases hopt : getOption opts k1 with
      | none => rw [hopt] at h; cases h
      | some o2 =>
        rw [hopt] at h
        dsimp only at h
        by_cases hcond : o2.dest = D ∧ v1 ≠ ""
        · rw [if_pos hcond] at h
          cases h
          exact ⟨by simp [keysOf], hopt, hcond.1, hcond.2⟩
        · rw [if_neg hcond] at h
          cases h

theorem keys_normalizeKeys_sub {items : List (String × String)} {a : String}
    (h : a ∈ keysOf (normalizeKeys items)) :
    ∃ kv ∈ items, a = normalizeKey kv.1 := by
  rcases mem_keys_dictUpdate h with h2 | h2
  · cases h2
  · simp only [keysOf, List.map_map, List.mem_map, Function.comp] at h2
    obtain ⟨kv, hkv, hEq⟩ := h2
    exact ⟨kv, hkv, hEq.symm⟩

theorem keys_mergeSources_sub {g c e : List (String × String)} {a : String}
    (h : a ∈ keysOf (mergeSources g c e)) :
    (∃ kv ∈ g, a = normalizeKey kv.1) ∨ (∃ kv ∈ c, a = normalizeKey kv.1) ∨
    (∃ kv ∈ e, a = normalizeKey kv.1) := by
  unfold mergeSources at h
  rcases mem_keys_dictUpdate h with h | h
  · rcases mem_keys_dictUpdate h with h | h
    · rcases mem_keys_dictUpdate h with h | h
      · cases h
      · exact Or.inl (keys_normalizeKeys_sub h)
    · exact Or.inr (Or.inl (keys_normalizeKeys_sub h))
  · exact Or.inr (Or.inr (keys_normalizeKeys_sub h))

/-- An option mentioned by no source has no relevant entry in the merged
mapping. -/
theorem lastRelevant_none_of_unmentioned {opts : List Opt}
    {g c e : List (String × String)} {D : String}
    (hg : ¬ mentionsDest opts g D) (hc : ¬ mentionsDest opts c D)
    (he : ¬ mentionsDest opts e D) :
    lastRelevant opts D (mergeSources g c e) = Option.none := by
  cases hlr : lastRelevant opts D (mergeSources g c e) with
  | none => rfl
  | some r =>
    obtain ⟨k2, o2, v2⟩ := r
    obtain ⟨hk, hopt, hdest, _⟩ := lastRelevant_sound hlr
    rcases keys_mergeSources_sub hk with ⟨kv, hkv, hEq⟩ | ⟨kv, hkv, hEq⟩ | ⟨kv, hkv, hEq⟩
    · exact absurd ⟨kv, hkv, o2, hEq ▸ hopt, hdest⟩ hg
    · exact absurd ⟨kv, hkv, o2, hEq ▸ hopt, hdest⟩ hc
    · exact absurd ⟨kv, hkv, o2, hEq ▸ hopt, hdest⟩ he

/-! ## The merged mapping at a uniquely-spelt option -/

theorem lastRelevant_none_of_no_key {opts : List Opt} {K : String} {o : Opt}
    (huniq : ∀ k2 o2, getOption opts k2 = some o2 → o2.dest = o.dest → k2 = K) :
    ∀ {m : List (String × String)}, K ∉ keysOf m →
    lastRelevant opts o.dest m = Option.none := by
  intro m
  induction m with
  | nil => intro _; rfl
  | cons hd rest ih =>
    intro hK
    obtain ⟨k1, v1⟩ := hd
    simp only [keysOf, List.map_cons, List.mem_cons] at hK
    push_neg at hK
    rw [lastRelevant, ih (by simpa [keysOf] using hK.2)]
    dsimp only
    cases hopt : getOption opts k1 with
    | none => rfl
    | some o2 =>
      dsimp only
      rw [if_neg]
      intro hcond
      exact hK.1 (huniq k1 o2 hopt hcond.1).symm

/-- When the only key spelling an option's destination is `K`, the last
relevant entry for that destination is exactly the merged mapping's `K`
entry, provided it is non-empty. -/
theorem lastRelevant_of_uniqueKey_some {opts : List Opt} {K : String} {o : Opt}
    (hfind : getOption opts K = some o)
    (huniq : ∀ k2 o2, getOption opts k2 = some o2 → o2.dest = o.dest → k2 = K) :
    ∀ {m : List (String × String)} {v : String}, (keysOf m).Nodup →
    dictGet m K = some v → v ≠ "" →
    lastRelevant opts o.dest m = some (K, o, v) := by
  intro m
  induction m with
  | nil => intro v _ hget _; cases hget
  | cons hd rest ih =>
    intro v hnd hget hv
    obtain ⟨k1, v1⟩ := hd
    simp only [keysOf, List.map_cons, List.nodup_cons] at hnd
    by_cases hk : k1 = K
    · subst hk
      have hv1 : v1 = v := by
        have : dictGet ((k1, v1) :: rest) k1 = some v1 := by simp [dictGet]
        rw [hget] at this
        cases this
        rfl
      subst hv1
      rw [lastRelevant,
        lastRelevant_none_of_no_key huniq (by simpa [keysOf] using hnd.1)]
      dsimp only
      rw [hfind]
      dsimp only
      rw [if_pos ⟨rfl, hv⟩]
    · have hget2 : dictGet rest K = some v := by
        have hne : ¬ k1 = K := hk
        simpa [dictGet, hne] using hget
      rw [lastRelevant, ih (by simpa [keysOf] using hnd.2) hget2 hv]

/-- Companion: if the `K` entry of the merged mapping is the empty
string, there is no relevant entry for the destination at all. -/
theorem lastRelevant_of_uniqueKey_empty {opts : List Opt} {K : String} {o : Opt}
    (hfind : getOption opts K = some o)
    (huniq : ∀ k2 o2, getOption opts k2 = some o2 → o2.dest = o.dest → k2 = K) :
    ∀ {m : List (String × String)}, (keysOf m).Nodup →
    dictGet m K = some "" →
    lastRelevant opts o.dest m = Option.none := by
  intro m
  induction m with
  | nil => intro _ hget; cases hget
  | cons hd rest ih =>
    intro hnd hget
    obtain ⟨k1, v1⟩ := hd
    simp only [keysOf, List.map_cons, List.nodup_cons] at hnd
    by_cases hk : k1 = K
    · subst hk
      have hv1 : v1 = "" := by
        have : dictGet ((k1, v1) :: rest) k1 = some v1 := by simp [dictGet]
        rw [hget] at this
        cases this
        rfl
      subst hv1
      rw [lastRelevant,
        lastRelevant_none_of_no_key huniq (by simpa [keysOf] using hnd.1)]
      dsimp only
      rw [hfind]
      dsimp only
      rw [if_neg]
      intro hcond
      exact hcond.2 rfl
    · have hget2 : dictGet rest K = some "" := by
        have hne : ¬ k1 = K := hk
        simpa [dictGet, hne] using hget
      rw [lastRelevant, ih (by simpa [keysOf] using hnd.2) hget2]
      dsimp only
      cases hopt : getOption opts k1 with
      | none => rfl
      | some o2 =>
        dsimp only
        rw [if_neg]
        intro hcond
        exact hk (huniq k1 o2 hopt hcond.1)

/-! ## The string-default re-checking pass -/

/-- The pass at the end of `get_default_values` preserves a binding whose
value every same-destination option's checker maps to itself (in
particular any non-string binding). -/
theorem checkDefaultsLoop_get {D : String} {v0 : Value} :
    ∀ {os : List Opt} {d d2 : List (String × Value)},
    checkDefaultsLoop os d = .ok d2 → dictGet d D = some v0 →
    (∀ o ∈ os, o.dest = D → ∀ s, v0 = .str s →
      checkValue o.type (getOptString o) (.str s) = .ok v0) →
    dictGet d2 D = some v0 := by
  intro os
  induction os with
  | nil =>
    intro d d2 hok hget _
    simp only [checkDefaultsLoop, Except.ok.injEq] at hok
    rw [← hok]
    exact hget
  | cons o rest ih =>
    intro d d2 hok hget hcond
    have hcond2 : ∀ o2 ∈ rest, o2.dest = D → ∀ s, v0 = .str s →
        checkValue o2.type (getOptString o2) (.str s) = .ok v0 :=
      fun o2 ho2 => hcond o2 (List.mem_cons_of_mem _ ho2)
    rw [checkDefaultsLoop] at hok
    by_cases hD : o.dest = D
    · rw [hD, hget] at hok
      cases v0 with
      | str s =>
        dsimp only at hok
        have hcv : checkValue o.type (getOptString o) (.str s) = .ok (.str s) :=
          hcond o (by simp) hD s rfl
        rw [hcv] at hok
        dsimp only at hok
        refine ih hok ?_ hcond2
        rw [dictGet_dictUpsert, if_pos rfl]
      | none => exact ih hok hget hcond2
      | bool b => exact ih hok hget hcond2
      | int n => exact ih hok hget hcond2
      | float q => exact ih hok hget hcond2
      | list xs => exact ih hok hget hcond2
      | tuple xs => exact ih hok hget hcond2
    · cases hscrut : dictGet d o.dest with
      | none =>
        rw [hscrut] at hok
        exact ih hok hget hcond2
      | some w =>
        rw [hscrut] at hok
        cases w with
        | str s =>
          dsimp only at hok
          cases hcv : checkValue o.type (getOptString o) (.str s) with
          | error er =>
            rw [hcv] at hok
            cases er with
            | optValueError m => rw [show CheckErr.optValueError m = .optValueError m from rfl] at hok; cases hok
            | typeError m => cases hok
          | ok val =>
            rw [hcv] at hok
            dsimp only at hok
            refine ih hok ?_ hcond2
            rw [dictGet_dictUpsert, if_neg hD]
            exact hget
        | none => exact ih hok hget hcond2
        | bool b => exact ih hok hget hcond2
        | int n => exact ih hok hget hcond2
        | float q => exact ih hok hget hcond2
        | list xs => exact ih hok hget hcond2
        | tuple xs => exact ih hok hget hcond2

/-! ## Key normalization facts -/

theorem strings_eq_of_data {a b : String} (h : a.data = b.data) : a = b := by
  cases a; cases b; cases h; rfl

theorem underscoreHyphen_idem (c : Char) :
    (if (if c = '_' then '-' else c) = '_' then '-'
     else if c = '_' then '-' else c) = if c = '_' then '-' else c := by
  by_cases hc : c = '_' <;> simp [hc]

theorem deUnderscore_idem (s : String) :
    deUnderscore (deUnderscore s) = deUnderscore s := by
  apply strings_eq_of_data
  show ((deUnderscore s).toList.map fun c => if c = '_' then '-' else c) =
    (deUnderscore s).toList
  show ((s.toList.map fun c => if c = '_' then '-' else c).map
      fun c => if c = '_' then '-' else c) = s.toList.map fun c => if c = '_' then '-' else c
  rw [List.map_map]
  apply List.map_congr_left
  intro c _
  exact underscoreHyphen_idem c

theorem deUnderscore_dashdash (s : String) :
    deUnderscore ("--" ++ deUnderscore s) =
      "--" ++ deUnderscore s := by
  apply strings_eq_of_data
  show (('-' :: '-' :: (deUnderscore s).toList).map fun c => if c = '_' then '-' else c) =
    '-' :: '-' :: (deUnderscore s).toList
  show ('-' :: '-' :: ((s.toList.map fun c => if c = '_' then '-' else c).map
      fun c => if c = '_' then '-' else c)) =
    '-' :: '-' :: (s.toList.map fun c => if c = '_' then '-' else c)
  rw [List.map_map]
  have hmap : List.map ((fun c => if c = '_' then '-' else c) ∘
      fun c => if c = '_' then '-' else c) s.toList =
      List.map (fun c => if c = '_' then '-' else c) s.toList := by
    apply List.map_congr_left
    intro c _
    exact underscoreHyphen_idem c
  rw [hmap]

theorem startsTwoDashes_dashdash (s : String) :
    startsTwoDashes ("--" ++ s) = true := by
  cases s
  rfl

theorem startsTwoDashes_deUnderscore_dashdash (s : String) :
    startsTwoDashes (deUnderscore ("--" ++ deUnderscore s)) = true := by
  rw [deUnderscore_dashdash]
  exact startsTwoDashes_dashdash _

/-! ## Environment enumeration as a filter-and-rename -/

/-- `get_environ_vars` keeps exactly the prefixed variables, in order,
rewriting each name by removing every occurrence of the prefix and
lower-casing, and passing the value through unchanged. -/
theorem getEnvironVars_eq_filter_map (pfx : String) :
    ∀ environ : List (String × String),
    getEnvironVars pfx environ =
      (environ.filter (fun kv => strStarts pfx kv.1)).map
        (fun kv => (strLower (strReplace kv.1 pfx ""), kv.2)) := by
  intro environ
  induction environ with
  | nil => rfl
  | cons hd rest ih =>
    obtain ⟨n, v⟩ := hd
    by_cases hs : strStarts pfx n = true
    · rw [getEnvironVars, if_pos hs, List.filter_cons_of_pos (by exact hs),
        List.map_cons, ih]
    · rw [getEnvironVars, if_neg (by simpa using hs),
        List.filter_cons_of_neg (by simpa using hs), ih]

/-! ## Shapes of coercion failures -/

theorem checkValue_optValueError {t : OptType} {optName : String} {v : Value} {m : String}
    (h : checkValue t optName v = .error (.optValueError m)) :
    ∃ rest, m = "option " ++ optName ++ rest := by
  cases t with
  | tNone => cases h
  | tStr => cases h
  | tFloat =>
    cases v with
    | str s =>
      rw [checkValue] at h
      cases hp : parseFloat s with
      | some q => rw [hp] at h; cases h
      | none =>
        rw [hp] at h
        dsimp only at h
        cases h
        exact ⟨": invalid floating-point value: " ++ s, by simp [String.append_assoc]⟩
    | none => cases h
    | bool b => cases h
    | int n => cases h
    | float q => cases h
    | list xs => cases h
    | tuple xs => cases h
  | tChoice choices =>
    cases v with
    | str s =>
      rw [checkValue] at h
      by_cases hmem : s ∈ choices
      · rw [if_pos hmem] at h; cases h
      · rw [if_neg hmem] at h
        cases h
        exact ⟨": invalid choice: " ++ s, by simp [String.append_assoc]⟩
    | none => cases h; exact ⟨": invalid choice", by simp [String.append_assoc]⟩
    | bool b => cases h; exact ⟨": invalid choice", by simp [String.append_assoc]⟩
    | int n => cases h; exact ⟨": invalid choice", by simp [String.append_assoc]⟩
    | float q => cases h; exact ⟨": invalid choice", by simp [String.append_assoc]⟩
    | list xs => cases h; exact ⟨": invalid choice", by simp [String.append_assoc]⟩
    | tuple xs => cases h; exact ⟨": invalid choice", by simp [String.append_assoc]⟩

theorem checkList_optValueError {t : OptType} {optName : String} {m : String} :
    ∀ {xs : List String}, checkList t optName xs = .error (.optValueError m) →
    ∃ rest, m = "option " ++ optName ++ rest := by
  intro xs
  induction xs with
  | nil => intro h; cases h
  | cons x xs ih =>
    intro h
    rw [checkList] at h
    cases hcv : checkValue t optName (.str x) with
    | error e =>
      rw [hcv] at h
      dsimp only at h
      cases h
      exact checkValue_optValueError hcv
    | ok v =>
      rw [hcv] at h
      dsimp only at h
      cases hrest : checkList t optName xs with
      | error e =>
        rw [hrest] at h
        dsimp only at h
        cases h
        exact ih hrest
      | ok vs => rw [hrest] at h; cases h

theorem convertValue_optValueError {o : Opt} {optName : String} {v : Value} {m : String}
    (h : convertValue o optName v = .error (.optValueError m)) :
    ∃ rest, m = "option " ++ optName ++ rest := by
  unfold convertValue at h
  cases v with
  | none => cases h
  | str s =>
    replace h :
        (if o.nargs = some 1 then checkValue o.type optName (.str s)
         else
           match checkList o.type optName (s.toList.map fun c => String.mk [c]) with
           | .ok vs => .ok (.tuple vs)
           | .error e => .error e) = Except.error (.optValueError m) := h
    by_cases hn : o.nargs = some 1
    · rw [if_pos hn] at h
      exact checkValue_optValueError h
    · rw [if_neg hn] at h
      cases hl : checkList o.type optName (s.toList.map fun c => String.mk [c]) with
      | error e => rw [hl] at h; dsimp only at h; cases h; exact checkList_optValueError hl
      | ok vs => rw [hl] at h; cases h
  | list xs =>
    replace h :
        (if o.nargs = some 1 then checkValue o.type optName (.list xs)
         else
           match checkList o.type optName xs with
           | .ok vs => .ok (.tuple vs)
           | .error e => .error e) = Except.error (.optValueError m) := h
    by_cases hn : o.nargs = some 1
    · rw [if_pos hn] at h
      exact checkValue_optValueError h
    · rw [if_neg hn] at h
      cases hl : checkList o.type optName xs with
      | error e => rw [hl] at h; dsimp only at h; cases h; exact checkList_optValueError hl
      | ok vs => rw [hl] at h; cases h
  | bool b =>
    dsimp only at h
    by_cases hn : o.nargs = some 1
    · rw [if_pos hn] at h
      exact checkValue_optValueError h
    · rw [if_neg hn] at h; cases h
  | int n =>
    dsimp only at h
    by_cases hn : o.nargs = some 1
    · rw [if_pos hn] at h
      exact checkValue_optValueError h
    · rw [if_neg hn] at h; cases h
  | float q =>
    dsimp only at h
    by_cases hn : o.nargs = some 1
    · rw [if_pos hn] at h
      exact checkValue_optValueError h
    · rw [if_neg hn] at h; cases h
  | tuple xs =>
    dsimp only at h
    by_cases hn : o.nargs = some 1
    · rw [if_pos hn] at h
      exact checkValue_optValueError h
    · rw [if_neg hn] at h; cases h

/-- The only failure `update_defaults` converts into the reported
`sys.exit(3)` path is an `OptionValueError` from `convert_value`, whose
report names the offending key; `strtobool`'s `ValueError` and a
checker's `TypeError` escape uncaught instead. -/
theorem coerceStep_error_shape {o : Opt} {k v : String} {e : ResError}
    (h : coerceStep o k v = .error e) :
    (∃ rest, e = .configExit
      ("An error occured during configuration: " ++ ("option " ++ k ++ rest))) ∨
    (∃ m, e = .uncaughtValueError m) ∨ (∃ m, e = .uncaughtTypeError m) := by
  unfold coerceStep at h
  dsimp only at h
  by_cases hb : o.action = .storeTrue ∨ o.action = .storeFalse ∨ o.action = .count
  · rw [if_pos hb] at h
    cases hsb : strtobool v with
    | error m =>
      rw [hsb] at h
      dsimp only at h
      cases h
      exact Or.inr (Or.inl ⟨m, rfl⟩)
    | ok n =>
      rw [hsb] at h
      dsimp only at h
      cases hcv : convertValue (if o.action = OptAction.append then o
          else { o with nargs := some 1 }) k (.int n) with
      | ok val => rw [hcv] at h; cases h
      | error er =>
        rw [hcv] at h
        cases er with
        | optValueError m =>
          dsimp only at h
          cases h
          obtain ⟨rest, hrest⟩ := convertValue_optValueError hcv
          exact Or.inl ⟨rest, by rw [hrest]⟩
        | typeError m =>
          dsimp only at h
          cases h
          exact Or.inr (Or.inr ⟨m, rfl⟩)
  · rw [if_neg hb] at h
    dsimp only at h
    cases hcv : convertValue (if o.action = OptAction.append then o
        else { o with nargs := some 1 }) k
        (if o.action = OptAction.append then Value.list (pySplit v) else Value.str v) with
    | ok val => rw [hcv] at h; cases h
    | error er =>
      rw [hcv] at h
      cases er with
      | optValueError m =>
        dsimp only at h
        cases h
        obtain ⟨rest, hrest⟩ := convertValue_optValueError hcv
        exact Or.inl ⟨rest, by rw [hrest]⟩
      | typeError m =>
        dsimp only at h
        cases h
        exact Or.inr (Or.inr ⟨m, rfl⟩)

/-- Any error of the resolution loop is either the reported
configuration exit — whose message names the offending key — or an
uncaught `ValueError`/`TypeError`. -/
theorem updLoop_error_shape {merged : List (String × String)} :
    ∀ {opts : List Opt} {defaults : List (String × Value)} {e : ResError},
    updLoop opts defaults merged = .error e →
    (∃ k rest, e = .configExit
      ("An error occured during configuration: " ++ ("option " ++ k ++ rest))) ∨
    (∃ m, e = .uncaughtValueError m) ∨ (∃ m, e = .uncaughtTypeError m) := by
  induction merged with
  | nil => intro _ _ _ h; cases h
  | cons hd rest ih =>
    intro opts defaults e h
    obtain ⟨k, v⟩ := hd
    rw [updLoop] at h
    cases hopt : getOption opts k with
    | none => rw [hopt] at h; exact ih h
    | some o =>
      rw [hopt] at h
      dsimp only at h
      by_cases hv : v = ""
      · rw [if_pos hv] at h
        exact ih h
      · rw [if_neg hv] at h
        cases hcs : coerceStep o k v with
        | error e2 =>
          rw [hcs] at h
          cases h
          rcases coerceStep_error_shape hcs with ⟨r, hr⟩ | hm | hm
          · exact Or.inl ⟨k, r, hr⟩
          · exact Or.inr (Or.inl hm)
          · exact Or.inr (Or.inr hm)
        | ok val =>
          rw [hcs] at h
          dsimp only at h
          exact ih h

/-! ## Decomposing a successful defaults materialization -/

theorem getDefaultValues_ok {p : Parser} {cfg : List (String × List (String × String))}
    {environ : List (String × String)} {vals : List (String × Value)} {p2 : Parser}
    (h : getDefaultValues p cfg environ = .ok (vals, p2)) :
    ∃ d1 opts1,
      updateDefaults p.options (getConfigSection cfg "global")
        (getConfigSection cfg p.name) (getEnvironVars "PIP_" environ) p.defaults =
        .ok (d1, opts1) ∧
      checkDefaultsLoop opts1 d1 = .ok vals ∧
      p2 = { p with options := opts1 } := by
  unfold getDefaultValues at h
  dsimp only at h
  cases hu : updateDefaults p.options (getConfigSection cfg "global")
      (getConfigSection cfg p.name) (getEnvironVars "PIP_" environ) p.defaults with
  | error err => rw [hu] at h; cases h
  | ok pr =>
    obtain ⟨d1, opts1⟩ := pr
    rw [hu] at h
    dsimp only at h
    cases hc : checkDefaultsLoop opts1 d1 with
    | error err => rw [hc] at h; cases h
    | ok d2 =>
      rw [hc] at h
      dsimp only at h
      cases h
      exact ⟨d1, opts1, rfl, hc, rfl⟩

/-! ## A concrete slice of pip's schema (from `create_main_parser`) -/

/-- `--timeout` / float / default 15 (one spelling suffices here). -/
def timeoutOpt : Opt :=
  { longOpts := ["--timeout"], dest := "timeout", action := .store,
    type := .tFloat, nargs := some 1, default := .float 15 }

/-- `--no-input` / store_true / default False. -/
def noInputOpt : Opt :=
  { longOpts := ["--no-input"], dest := "no_input", action := .storeTrue,
    type := .tNone, nargs := Option.none, default := .bool false }

/-- `--verbose` / count / default 0. -/
def verboseOpt : Opt :=
  { longOpts := ["--verbose"], dest := "verbose", action := .count,
    type := .tNone, nargs := Option.none, default := .int 0 }

/-- `--proxy` / str / default the empty string. -/
def proxyOpt : Opt :=
  { longOpts := ["--proxy"], dest := "proxy", action := .store,
    type := .tStr, nargs := some 1, default := .str "" }

/-! ## The claims -/

/-- C5: key normalization (underscores to hyphens, then the `--` prefix
when absent) is idempotent: normalizing an already-normalized key
changes nothing. -/
theorem c5_normalize_idempotent (k : String) :
    normalizeKey (normalizeKey k) = normalizeKey k := by
  by_cases h : startsTwoDashes (deUnderscore k) = true
  · have h1 : normalizeKey k = deUnderscore k := by
      unfold normalizeKey
      rw [if_pos h]
    rw [h1]
    unfold normalizeKey
    rw [deUnderscore_idem, if_pos h]
  · have h1 : normalizeKey k = "--" ++ deUnderscore k := by
      unfold normalizeKey
      rw [if_neg h]
    rw [h1]
    unfold normalizeKey
    rw [deUnderscore_dashdash, if_pos (startsTwoDashes_dashdash _)]

/-- C9 counterexample: for the variable `PIP_PIP_VERSION` the code
produces the raw key `version` — `key.replace(prefix, '')` removes every
occurrence of the prefix — while the claim's prefix-stripping would
produce `pip_version`. -/
theorem c9_env_enum_counterexample :
    getEnvironVars "PIP_" [("PIP_PIP_VERSION", "x")] = [("version", "x")] ∧
    strLower (String.mk ("PIP_PIP_VERSION".toList.drop "PIP_".toList.length)) =
      "pip_version" ∧
    ("version" : String) ≠ "pip_version" :=
  ⟨rfl, rfl, by decide⟩

/-- C9 (amended): environment enumeration selects exactly the variables
whose name starts with the prefix, in order; the produced raw key is the
name with every occurrence of the prefix removed, lower-cased (equal to
prefix-stripping whenever the prefix does not recur); the raw value is
unchanged. -/
theorem c9_env_enum_amended (pfx : String) (environ : List (String × String)) :
    getEnvironVars pfx environ =
      (environ.filter (fun kv => strStarts pfx kv.1)).map
        (fun kv => (strLower (strReplace kv.1 pfx ""), kv.2)) :=
  getEnvironVars_eq_filter_map pfx environ

/-- C10: a successful `get_default_values` returns a parser state whose
`defaults` dict is the one it started from — the overlay is applied to a
copy (even though the option table may carry the `nargs` mutation). -/
theorem c10_defaults_unchanged (p : Parser) (cfg : List (String × List (String × String)))
    (environ : List (String × String)) (vals : List (String × Value)) (p2 : Parser)
    (hok : getDefaultValues p cfg environ = .ok (vals, p2)) :
    p2.defaults = p.defaults := by
  obtain ⟨d1, opts1, _, _, hp2⟩ := getDefaultValues_ok hok
  rw [hp2]

/-- C10 witness: a run that reads `timeout = 20` from the global section
rewrites the option table but returns the stored defaults untouched. -/
theorem c10_defaults_unchanged_witness :
    ({ name := "install", options := [{ timeoutOpt with nargs := some 1 }],
       defaults := schemaDefaults [timeoutOpt] } : Parser).defaults =
      ({ name := "install", options := [timeoutOpt],
         defaults := schemaDefaults [timeoutOpt] } : Parser).defaults :=
  c10_defaults_unchanged
    { name := "install", options := [timeoutOpt], defaults := schemaDefaults [timeoutOpt] }
    [("global", [("timeout", "20")])] [] [("timeout", Value.float 20)]
    { name := "install", options := [{ timeoutOpt with nargs := some 1 }],
      defaults := schemaDefaults [timeoutOpt] } rfl

/-- C8 counterexample: resolving `no-input = 1` mutates the matched
Option Descriptor — `update_defaults` runs `option.nargs = 1`, changing
the descriptor's `nargs` field from `None` to 1. -/
theorem c8_descriptor_mutation_counterexample :
    updLoop [noInputOpt] (schemaDefaults [noInputOpt]) [("--no-input", "1")] =
      .ok ([("no_input", Value.int 1)], [{ noInputOpt with nargs := some 1 }]) ∧
    ({ noInputOpt with nargs := some 1 } : Opt) ≠ noInputOpt := by
  refine ⟨rfl, ?_⟩
  intro h
  have h2 := congrArg Opt.nargs h
  simp [noInputOpt] at h2

/-- C8 (amended): the only mutation the resolution loop performs on an
Option Descriptor is setting `nargs` to 1 on a matched non-`append`
option; every other field of every descriptor is unchanged (`optsR`). -/
theorem c8_descriptor_mutation_amended (opts : List Opt)
    (defaults d2 : List (String × Value)) (merged : List (String × String))
    (opts2 : List Opt) (hok : updLoop opts defaults merged = .ok (d2, opts2)) :
    optsR opts opts2 :=
  updLoop_optsR (optsR_refl opts) hok

/-- C8 witness: the mutated table of the counterexample run is `optsR`-
related to the original. -/
theorem c8_descriptor_mutation_amended_witness :
    optsR [noInputOpt] [{ noInputOpt with nargs := some 1 }] :=
  c8_descriptor_mutation_amended [noInputOpt] (schemaDefaults [noInputOpt])
    [("no_input", Value.int 1)] [("--no-input", "1")]
    [{ noInputOpt with nargs := some 1 }] rfl

/-- C1 counterexample: `timeout` is supplied non-empty by both file
sections (global 20, command section 25) and empty by the environment;
the claim demands the highest-precedence non-empty value (25.0, or 20.0
on the global reading), but the resolved value falls back to the schema
default 15, because the empty environment value wins the merge and is
then skipped. -/
theorem c1_precedence_counterexample :
    updateDefaults [timeoutOpt] [("timeout", "20")] [("timeout", "25")]
        (getEnvironVars "PIP_" [("PIP_TIMEOUT", "")]) (schemaDefaults [timeoutOpt]) =
      .ok ([("timeout", Value.float 15)], [timeoutOpt]) ∧
    Value.float 15 ≠ Value.float 25 ∧ Value.float 15 ≠ Value.float 20 := by
  refine ⟨rfl, ?_, ?_⟩
  · intro h
    injection h with h2
    exact absurd h2 (by decide)
  · intro h
    injection h with h2
    exact absurd h2 (by decide)

/-- C1 (amended): when the highest-precedence source that supplies a key
supplies it non-empty, the resolved value for the option's destination is
the coercion of exactly that value — environment over command section
over global section (`oElse` chain), any of them over the schema default.
`K` is assumed to be the option's only spelling that reaches its
destination. -/
theorem c1_precedence_amended (opts : List Opt) (g c e : List (String × String))
    (defaults : List (String × Value)) (o : Opt) (K v : String)
    (d2 : List (String × Value)) (opts2 : List Opt)
    (hfind : getOption opts K = some o)
    (huniq : ∀ k2 o2, getOption opts k2 = some o2 → o2.dest = o.dest → k2 = K)
    (heff : oElse (supplies e K) (oElse (supplies c K) (supplies g K)) = some v)
    (hv : v ≠ "")
    (hok : updateDefaults opts g c e defaults = .ok (d2, opts2)) :
    ∃ val, coerceStep o K v = .ok val ∧ dictGet d2 o.dest = some val := by
  have hmerged : dictGet (mergeSources g c e) K = some v := by
    rw [mergeSources_get]
    exact heff
  exact updLoop_resolves (optsR_refl opts) hok
    (lastRelevant_of_uniqueKey_some hfind huniq (nodup_keys_mergeSources g c e) hmerged hv)

/-- C1 witness: global 20, command section 25, environment 5 — the
resolved `timeout` is the environment's 5.0. -/
theorem c1_precedence_amended_witness :
    coerceStep timeoutOpt "--timeout" "5" = .ok (.float 5) ∧
    dictGet [("timeout", Value.float 5)] "timeout" = some (.float 5) := by
  have h := c1_precedence_amended [timeoutOpt] [("timeout", "20")] [("timeout", "25")]
    (getEnvironVars "PIP_" [("PIP_TIMEOUT", "5")]) (schemaDefaults [timeoutOpt])
    timeoutOpt "--timeout" "5" [("timeout", Value.float 5)] [timeoutOpt]
    rfl ?_ rfl (by decide) rfl
  · obtain ⟨val, h1, h2⟩ := h
    rw [show coerceStep timeoutOpt "--timeout" "5" = Except.ok (Value.float 5) from rfl]
      at h1
    cases h1
    exact ⟨rfl, h2⟩
  · intro k2 o2 h2 _
    by_cases hk : k2 ∈ timeoutOpt.longOpts
    · simpa [timeoutOpt] using hk
    · rw [getOption, if_neg hk] at h2
      cases h2

/-- C4 counterexample: the global section supplies `timeout = 20`; the
environment supplies the empty string.  The claim says the empty value
leaves the option at the lower tier's 20.0, but the code resolves the
schema default 15 — the empty value overwrote the file value in the
merge before being skipped (without the empty override the same sources
do give 20.0). -/
theorem c4_empty_value_counterexample :
    updateDefaults [timeoutOpt] [("timeout", "20")] []
        (getEnvironVars "PIP_" [("PIP_TIMEOUT", "")]) (schemaDefaults [timeoutOpt]) =
      .ok ([("timeout", Value.float 15)], [timeoutOpt]) ∧
    updateDefaults [timeoutOpt] [("timeout", "20")] [] [] (schemaDefaults [timeoutOpt]) =
      .ok ([("timeout", Value.float 20)], [timeoutOpt]) ∧
    Value.float 15 ≠ Value.float 20 := by
  refine ⟨rfl, rfl, ?_⟩
  intro h
  injection h with h2
  exact absurd h2 (by decide)

/-- C4 (amended): an empty raw value never creates or overwrites an
entry itself — if the highest-precedence source supplying the key
supplies the empty string, the option's destination keeps exactly the
binding it had in the incoming defaults (the schema default); lower-tier
non-empty values are masked rather than restored. -/
theorem c4_empty_value_amended (opts : List Opt) (g c e : List (String × String))
    (defaults : List (String × Value)) (o : Opt) (K : String)
    (d2 : List (String × Value)) (opts2 : List Opt)
    (hfind : getOption opts K = some o)
    (huniq : ∀ k2 o2, getOption opts k2 = some o2 → o2.dest = o.dest → k2 = K)
    (heff : oElse (supplies e K) (oElse (supplies c K) (supplies g K)) = some "")
    (hok : updateDefaults opts g c e defaults = .ok (d2, opts2)) :
    dictGet d2 o.dest = dictGet defaults o.dest := by
  have hmerged : dictGet (mergeSources g c e) K = some "" := by
    rw [mergeSources_get]
    exact heff
  exact updLoop_unchanged (optsR_refl opts) hok
    (lastRelevant_of_uniqueKey_empty hfind huniq (nodup_keys_mergeSources g c e) hmerged)

/-- C4 witness: with global 20 and an empty environment override, the
resolved `timeout` binding equals the schema-default binding. -/
theorem c4_empty_value_amended_witness :
    dictGet [("timeout", Value.float 15)] "timeout" =
      dictGet (schemaDefaults [timeoutOpt]) "timeout" := by
  refine c4_empty_value_amended [timeoutOpt] [("timeout", "20")] []
    (getEnvironVars "PIP_" [("PIP_TIMEOUT", "")]) (schemaDefaults [timeoutOpt])
    timeoutOpt "--timeout" [("timeout", Value.float 15)] [timeoutOpt]
    rfl ?_ rfl rfl
  intro k2 o2 h _
  by_cases hk : k2 ∈ timeoutOpt.longOpts
  · simpa [timeoutOpt] using hk
  · rw [getOption, if_neg hk] at h
    cases h

/-- C7 counterexample: an invalid boolean token (`--verbose =
frequently`) is a value error during coercion, but it aborts as an
uncaught `ValueError` with exit status 1 — inside {0, 1, 2}, not the
reserved configuration-error status 3 the claim requires, and without
the configuration-error report. -/
theorem c7_coercion_error_counterexample :
    updLoop [verboseOpt] (schemaDefaults [verboseOpt]) [("--verbose", "frequently")] =
      .error (.uncaughtValueError "invalid truth value frequently") ∧
    (ResError.uncaughtValueError "invalid truth value frequently").exitCode = 1 ∧
    (1 : Nat) ≠ 3 :=
  ⟨rfl, rfl, by decide⟩

/-- C7 (amended): an `OptionValueError` raised inside `convert_value`
(invalid enum choice, unparsable float) aborts the pass with the printed
configuration report naming the offending key and exit status 3 — which
is none of 0, 1, 2; but an invalid boolean/counter token instead raises
an uncaught `ValueError` (exit status 1), as does a checker `TypeError`. -/
theorem c7_coercion_error_amended (opts : List Opt) (defaults : List (String × Value))
    (merged : List (String × String)) (e : ResError)
    (herr : updLoop opts defaults merged = .error e) :
    ((∃ k rest, e = .configExit
        ("An error occured during configuration: " ++ ("option " ++ k ++ rest))) ∧
      e.exitCode = 3 ∧ e.exitCode ≠ 0 ∧ e.exitCode ≠ 1 ∧ e.exitCode ≠ 2) ∨
    ((∃ m, e = .uncaughtValueError m ∨ e = .uncaughtTypeError m) ∧ e.exitCode = 1) := by
  rcases updLoop_error_shape herr with ⟨k, r, hr⟩ | ⟨m, hm⟩ | ⟨m, hm⟩
  · subst hr
    exact Or.inl ⟨⟨k, r, rfl⟩, rfl, (by decide : (3 : Nat) ≠ 0),
      (by decide : (3 : Nat) ≠ 1), (by decide : (3 : Nat) ≠ 2)⟩
  · subst hm
    exact Or.inr ⟨⟨m, Or.inl rfl⟩, rfl⟩
  · subst hm
    exact Or.inr ⟨⟨m, Or.inr rfl⟩, rfl⟩

/-- C7 witness: `timeout = twenty` fails float coercion and exits through
the reported configuration path with status 3. -/
theorem c7_coercion_error_amended_witness :
    updLoop [timeoutOpt] (schemaDefaults [timeoutOpt]) [("--timeout", "twenty")] =
      .error (.configExit
        "An error occured during configuration: option --timeout: invalid floating-point value: twenty") ∧
    (ResError.configExit
      "An error occured during configuration: option --timeout: invalid floating-point value: twenty").exitCode
      = 3 := by
  refine ⟨rfl, ?_⟩
  rcases c7_coercion_error_amended [timeoutOpt] (schemaDefaults [timeoutOpt])
      [("--timeout", "twenty")]
      (.configExit
        "An error occured during configuration: option --timeout: invalid floating-point value: twenty")
      rfl with ⟨_, h3, _⟩ | ⟨⟨m, hm⟩, _⟩
  · exact h3
  · rcases hm with hm | hm <;> cases hm

/-- `convert_value` on an integer with `nargs = 1` is just the type
check (an integer is not iterable, so the other branch would raise). -/
theorem convertValue_int (o : Opt) (optName : String) (n : Int)
    (hn : o.nargs = some 1) :
    convertValue o optName (.int n) = checkValue o.type optName (.int n) := by
  show (if o.nargs = some 1 then checkValue o.type optName (.int n)
    else Except.error (.typeError "argument is not iterable")) =
    checkValue o.type optName (.int n)
  rw [if_pos hn]

/-- C6 (amended): for flag (`store_true`/`store_false`) and counter
options, every truthy token coerces to the integer 1 and every falsy
token to 0; any other string raises `strtobool`'s `ValueError`, which —
being uncaught — aborts the resolution pass as a plain exception rather
than through the reported configuration-error exit. -/
theorem c6_bool_vocab_amended (o : Opt) (k : String)
    (ha : o.action = .storeTrue ∨ o.action = .storeFalse ∨ o.action = .count)
    (ht : o.type = .tNone) :
    (∀ v ∈ (["y", "yes", "t", "true", "on", "1"] : List String),
      coerceStep o k v = .ok (.int 1)) ∧
    (∀ v ∈ (["n", "no", "f", "false", "off", "0"] : List String),
      coerceStep o k v = .ok (.int 0)) ∧
    (∀ v : String,
      strLower v ∉ (["y", "yes", "t", "true", "on", "1"] : List String) →
      strLower v ∉ (["n", "no", "f", "false", "off", "0"] : List String) →
      coerceStep o k v =
        .error (.uncaughtValueError ("invalid truth value " ++ strLower v))) := by
  have hna : o.action ≠ .append := by
    rcases ha with h | h | h <;> rw [h] <;> intro hc <;> cases hc
  have hstep : ∀ v : String, coerceStep o k v =
      (match strtobool v with
       | .ok n => .ok (.int (n : Int))
       | .error m => .error (.uncaughtValueError m)) := by
    intro v
    unfold coerceStep
    dsimp only
    rw [if_pos ha, if_neg hna]
    cases hsb : strtobool v with
    | error m => rfl
    | ok n =>
      dsimp only
      have hconv : convertValue { o with nargs := some 1 } k (.int (n : Int)) =
          .ok (.int (n : Int)) := by
        rw [convertValue_int _ _ _ rfl,
          show ({ o with nargs := some 1 } : Opt).type = o.type from rfl, ht]
        rfl
      rw [hconv]
  refine ⟨?_, ?_, ?_⟩
  · intro v hv
    fin_cases hv <;> rw [hstep] <;> rfl
  · intro v hv
    fin_cases hv <;> rw [hstep] <;> rfl
  · intro v h1 h2
    have h1a : ¬(strLower v = "y" ∨ strLower v = "yes" ∨ strLower v = "t" ∨
        strLower v = "true" ∨ strLower v = "on" ∨ strLower v = "1") := by
      simpa using h1
    have h2a : ¬(strLower v = "n" ∨ strLower v = "no" ∨ strLower v = "f" ∨
        strLower v = "false" ∨ strLower v = "off" ∨ strLower v = "0") := by
      simpa using h2
    have hsb : strtobool v = .error ("invalid truth value " ++ strLower v) := by
      unfold strtobool
      dsimp only
      rw [if_neg h1a, if_neg h2a]
    rw [hstep, hsb]

/-- C6 counterexample: `no-input = maybe` is outside the boolean
vocabulary; the resulting `ValueError` escapes the `except
OptionValueError` clause, so the process dies with exit status 1 — not
with the reserved coercion-failure (configuration-error) exit 3 the
claim's "fatal coercion failure" denotes. -/
theorem c6_bool_vocab_counterexample :
    updLoop [noInputOpt] (schemaDefaults [noInputOpt]) [("--no-input", "maybe")] =
      .error (.uncaughtValueError "invalid truth value maybe") ∧
    (ResError.uncaughtValueError "invalid truth value maybe").exitCode = 1 ∧
    (1 : Nat) ≠ 3 :=
  ⟨rfl, rfl, by decide⟩

/-- C6 witness: a `store_true` option under the truthy token `True`, the
falsy token `0`, and the invalid token `maybe`. -/
theorem c6_bool_vocab_amended_witness :
    coerceStep noInputOpt "--no-input" "1" = .ok (.int 1) ∧
    coerceStep noInputOpt "--no-input" "off" = .ok (.int 0) ∧
    coerceStep noInputOpt "--no-input" "maybe" =
      .error (.uncaughtValueError ("invalid truth value " ++ strLower "maybe")) := by
  obtain ⟨ht, hf, he⟩ := c6_bool_vocab_amended noInputOpt "--no-input"
    (Or.inl rfl) rfl
  exact ⟨ht "1" (by decide), hf "off" (by decide), he "maybe" (by decide) (by decide)⟩

/-- C3: a raw key whose normalized form matches no Option Descriptor is
silently ignored: dropping every merged entry with that key changes
nothing about the pass (so no error can come from it), and — provided no
descriptor is actually named like the key — a successful pass binds
nothing at either spelling of the key. -/
theorem c3_unknown_ignored (opts : List Opt) (r : String)
    (hk : getOption opts (normalizeKey r) = Option.none)
    (hd : ∀ o ∈ opts, o.dest ≠ r ∧ o.dest ≠ normalizeKey r) :
    (∀ (defaults : List (String × Value)) (merged : List (String × String)),
      updLoop opts defaults merged =
        updLoop opts defaults (merged.filter fun kv => kv.1 ≠ normalizeKey r)) ∧
    (∀ (g c e : List (String × String)) (defaults d2 : List (String × Value))
      (opts2 : List Opt), updateDefaults opts g c e defaults = .ok (d2, opts2) →
      dictGet d2 r = dictGet defaults r ∧
      dictGet d2 (normalizeKey r) = dictGet defaults (normalizeKey r)) := by
  constructor
  · intro defaults merged
    exact updLoop_ignores_unknown hk (optsR_refl opts)
  · intro g c e defaults d2 opts2 hok
    have hnone : ∀ D : String, (∀ o ∈ opts, o.dest ≠ D) →
        lastRelevant opts D (mergeSources g c e) = Option.none := by
      intro D hD
      cases hlr : lastRelevant opts D (mergeSources g c e) with
      | none => rfl
      | some rec =>
        obtain ⟨k2, o2, v2⟩ := rec
        obtain ⟨_, hfound, hdest, _⟩ := lastRelevant_sound hlr
        exact absurd hdest (hD o2 (getOption_mem hfound))
    exact ⟨updLoop_unchanged (optsR_refl opts) hok
        (hnone r fun o ho => (hd o ho).1),
      updLoop_unchanged (optsR_refl opts) hok
        (hnone (normalizeKey r) fun o ho => (hd o ho).2)⟩

/-- C3 witness: the config key `foo-bar = 1` (normalizing to
`--foo-bar`) is dropped by the loop and leaves the resolved mapping
without any `foo-bar` binding, with no error raised. -/
theorem c3_unknown_ignored_witness :
    (updLoop [timeoutOpt] (schemaDefaults [timeoutOpt]) [("--foo-bar", "1")] =
      updLoop [timeoutOpt] (schemaDefaults [timeoutOpt])
        ([("--foo-bar", "1")].filter fun kv => kv.1 ≠ normalizeKey "foo-bar")) ∧
    dictGet (schemaDefaults [timeoutOpt]) "foo-bar" =
      dictGet (schemaDefaults [timeoutOpt]) "foo-bar" ∧
    dictGet (schemaDefaults [timeoutOpt]) "foo-bar" = Option.none := by
  have hd : ∀ o ∈ [timeoutOpt], o.dest ≠ "foo-bar" ∧ o.dest ≠ normalizeKey "foo-bar" := by
    intro o ho
    simp only [List.mem_singleton] at ho
    subst ho
    exact ⟨by decide, by decide⟩
  have h := c3_unknown_ignored [timeoutOpt] "foo-bar" rfl hd
  refine ⟨h.1 (schemaDefaults [timeoutOpt]) [("--foo-bar", "1")], ?_, rfl⟩
  exact (h.2 [("foo-bar", "1")] [] [] (schemaDefaults [timeoutOpt])
    (schemaDefaults [timeoutOpt]) [timeoutOpt] rfl).1

/-- A descriptor's default survives its own `check_value` pass: a
non-string default is never re-checked, and a string default must come
back unchanged. -/
def defaultCheckStable (o : Opt) : Prop :=
  ∀ s, o.default = .str s → checkValue o.type (getOptString o) (.str s) = .ok o.default

/-- C2: an option mentioned in no source — neither config-file section
and no prefixed environment variable — resolves to its descriptor's
hard-coded default (assuming the stored defaults reflect the schema,
the option owns its destination, and its default is check-stable). -/
theorem c2_unmentioned_default (p : Parser) (cfg : List (String × List (String × String)))
    (environ : List (String × String)) (o : Opt) (vals : List (String × Value))
    (p2 : Parser) (ho : o ∈ p.options)
    (hdef : dictGet p.defaults o.dest = some o.default)
    (huniq : ∀ o2 ∈ p.options, o2.dest = o.dest → o2 = o)
    (hstable : defaultCheckStable o)
    (hg : ¬ mentionsDest p.options (getConfigSection cfg "global") o.dest)
    (hc : ¬ mentionsDest p.options (getConfigSection cfg p.name) o.dest)
    (he : ¬ mentionsDest p.options (getEnvironVars "PIP_" environ) o.dest)
    (hok : getDefaultValues p cfg environ = .ok (vals, p2)) :
    dictGet vals o.dest = some o.default := by
  obtain ⟨d1, opts1, hu, hcheck, _⟩ := getDefaultValues_ok hok
  have h1 : dictGet d1 o.dest = some o.default := by
    rw [updLoop_unchanged (optsR_refl p.options) hu
      (lastRelevant_none_of_unmentioned hg hc he)]
    exact hdef
  refine checkDefaultsLoop_get hcheck h1 ?_
  intro o2 ho2 hdest s hs
  obtain ⟨o0, ho0, hR⟩ := optsR_mem (updLoop_optsR (optsR_refl p.options) hu) ho2
  have ho0dest : o0.dest = o.dest := by
    rw [← optR_dest hR]
    exact hdest
  have ho0o : o0 = o := huniq o0 ho0 ho0dest
  subst ho0o
  rw [optR_type hR,
    show getOptString o2 = getOptString o0 by unfold getOptString; rw [optR_longOpts hR]]
  exact hstable s hs

/-- C2 witness: with `timeout = 20` in the global section and nothing
else, the never-mentioned `proxy` option resolves to its hard-coded
default, the empty string. -/
theorem c2_unmentioned_default_witness :
    dictGet [("timeout", Value.float 20), ("proxy", Value.str "")] "proxy" =
      some (Value.str "") := by
  have hng : ¬ mentionsDest [timeoutOpt, proxyOpt]
      (getConfigSection [("global", [("timeout", "20")])] "global") "proxy" := by
    intro hmem
    obtain ⟨kv, hkv, o2, hfound, hdest⟩ := hmem
    have hkv2 : kv = ("timeout", "20") := by
      simpa [getConfigSection, dictGet] using hkv
    subst hkv2
    rw [show getOption [timeoutOpt, proxyOpt] (normalizeKey "timeout") = some timeoutOpt
      from rfl] at hfound
    cases hfound
    exact absurd hdest (by decide)
  have hnil : ∀ src : List (String × String), src = [] →
      ¬ mentionsDest [timeoutOpt, proxyOpt] src "proxy" := by
    intro src hsrc hmem
    obtain ⟨kv, hkv, _⟩ := hmem
    rw [hsrc] at hkv
    cases hkv
  refine c2_unmentioned_default
    { name := "install", options := [timeoutOpt, proxyOpt],
      defaults := schemaDefaults [timeoutOpt, proxyOpt] }
    [("global", [("timeout", "20")])] [] proxyOpt
    [("timeout", Value.float 20), ("proxy", Value.str "")]
    { name := "install", options := [{ timeoutOpt with nargs := some 1 }, proxyOpt],
      defaults := schemaDefaults [timeoutOpt, proxyOpt] }
    (by simp) rfl ?_ ?_ hng (hnil _ rfl) (hnil _ rfl) rfl
  · intro o2 ho2 hdest
    simp only [List.mem_cons, List.mem_singleton] at ho2
    rcases ho2 with h | h | h
    · subst h
      exact absurd hdest (by decide)
    · exact h
    · cases h
  · intro s hs
    cases hs
    rfl

end PipConfig
